import Mathlib

/-!
Verification of the core of `tidy.py`, a safe file-tidying CLI.

The program's data lives on a filesystem; we embed the parts the
specification talks about as pure Lean functions over an explicit
filesystem state:

* `FPath` — a file path, as directory components plus a file name.
* `FS` — the filesystem state: the set of regular files and the set of
  directories, as lists (the program is single-threaded; all mutation is
  explicit state passing).
* Python's `pathlib` stem/suffix split, decimal formatting of the
  collision counter, `safe_move`'s probe loop, the size-then-hash
  duplicate grouper, the dedupe/organize/encrypt orchestrators and the
  key store are each translated function by function from the source.

External collaborators (the OS `stat`, the content hash, the symmetric
encryption primitive, glob matching) are parameters: the code under
verification only composes them.
-/

set_option autoImplicit false

namespace Tidy

/-- A file path: directory components plus a final name component. -/
structure FPath where
  dir : List String
  name : String
deriving DecidableEq, Repr

/-- All components of the path, the name included. -/
def fullPath (p : FPath) : List String := p.dir ++ [p.name]

/-- The path as a string, components joined by the separator
(Python's `str(path)`). -/
def pathStr (p : FPath) : String :=
  String.intercalate "/" (fullPath p)

/-- Length of the path string; `safe_move`'s sibling `dedupe_action`
keeps the member with the least such length. -/
def pathLen (p : FPath) : Nat := (pathStr p).length

/-- Filesystem state: existing regular files and existing directories. -/
structure FS where
  files : List FPath
  dirs : List (List String)
deriving DecidableEq, Repr

/-- `Path.exists()`: the path names an existing file or directory. -/
def existsPath (fs : FS) (p : FPath) : Bool :=
  fs.files.contains p || fs.dirs.contains (fullPath p)

/-- `ensure_directory`: `mkdir(parents=True, exist_ok=True)` — creates the
directory and every missing ancestor, and is a no-op on the ones that
exist. -/
def ensureDirectory (fs : FS) (d : List String) : FS :=
  { fs with dirs := fs.dirs ++ d.inits.filter (fun x => !(fs.dirs.contains x)) }

/-! ### Decimal rendering of the collision counter (`f"{counter}"`) -/

/-- Decimal digits of `n`, most significant first; `fuel` bounds the
recursion depth and any `fuel > n` is enough. -/
def decDigitsAux : Nat → Nat → List Char
  | 0, _ => []
  | fuel + 1, n =>
    if n < 10 then [Nat.digitChar n]
    else decDigitsAux fuel (n / 10) ++ [Nat.digitChar (n % 10)]

/-- Decimal rendering of a natural number, as Python's `f"{n}"`. -/
def natRepr (n : Nat) : String := ⟨decDigitsAux (n + 1) n⟩

/-- Numeric value of a decimal digit character. -/
def decValC (c : Char) : Nat := c.toNat - 48

/-- Numeric value of a most-significant-first digit string. -/
def decVal (cs : List Char) : Nat := cs.foldl (fun a c => a * 10 + decValC c) 0

theorem decValC_digitChar {d : Nat} (h : d < 10) :
    decValC (Nat.digitChar d) = d := by
  interval_cases d <;> rfl

theorem decVal_append (xs : List Char) (c : Char) :
    decVal (xs ++ [c]) = 10 * decVal xs + decValC c := by
  simp [decVal, List.foldl_append, Nat.mul_comm]

theorem decVal_decDigitsAux : ∀ fuel n, n < fuel →
    decVal (decDigitsAux fuel n) = n := by
  intro fuel
  induction fuel with
  | zero => intro n h; omega
  | succ fuel ih =>
    intro n h
    by_cases h10 : n < 10
    · simp only [decDigitsAux, if_pos h10]
      simpa [decVal] using decValC_digitChar h10
    · have hdiv : n / 10 < n := Nat.div_lt_self (by omega) (by omega)
      have hfuel : n / 10 < fuel := by omega
      simp only [decDigitsAux, if_neg h10]
      rw [decVal_append, ih _ hfuel, decValC_digitChar (Nat.mod_lt _ (by omega))]
      omega

theorem natRepr_injective : Function.Injective natRepr := by
  intro a b h
  have hdata : decDigitsAux (a + 1) a = decDigitsAux (b + 1) b :=
    congrArg String.data h
  have := decVal_decDigitsAux (a + 1) a (by omega)
  rw [hdata, decVal_decDigitsAux (b + 1) b (by omega)] at this
  omega

/-- Zero-padding on the left to width `w` (`f"{n:02d}"`, `f"{n:04d}"`). -/
def padLeftZeros (w : Nat) (cs : List Char) : List Char :=
  List.replicate (w - cs.length) '0' ++ cs

/-- `f"{n:02d}"`. -/
def pad2 (n : Nat) : String := ⟨padLeftZeros 2 (decDigitsAux (n + 1) n)⟩

/-- `f"{n:04d}"`. -/
def pad4 (n : Nat) : String := ⟨padLeftZeros 4 (decDigitsAux (n + 1) n)⟩

/-! ### Python `pathlib` stem/suffix split -/

/-- `PurePath.stem` and `PurePath.suffix` together: `name.rfind('.')`
splits the name at the last dot when that dot is neither the first nor
the last character; otherwise the stem is the whole name and the suffix
is empty. -/
def stemSuffix (name : String) : String × String :=
  match ((List.range name.data.length).filter
      (fun i => name.data.getD i ' ' == '.')).getLast? with
  | some i =>
    if 0 < i ∧ i < name.data.length - 1 then (⟨name.data.take i⟩, ⟨name.data.drop i⟩)
    else (name, "")
  | none => (name, "")

theorem stemSuffix_append (s : String) :
    (stemSuffix s).1 ++ (stemSuffix s).2 = s := by
  unfold stemSuffix
  split
  · split
    · show String.mk (s.data.take _ ++ s.data.drop _) = s
      rw [List.take_append_drop]
    · exact String.append_empty s
  · exact String.append_empty s

/-! ### `safe_move`: collision-free destination resolution -/

/-- The `counter`-th alternate destination probed by `safe_move`:
`parent / f"{stem}__{counter}{suffix}"`. -/
def candidate (dest : FPath) (n : Nat) : FPath :=
  ⟨dest.dir, (stemSuffix dest.name).1 ++ "__" ++ natRepr n ++ (stemSuffix dest.name).2⟩

theorem candidate_name_injective (dest : FPath) {n m : Nat}
    (h : candidate dest n = candidate dest m) : n = m := by
  have hname : (stemSuffix dest.name).1 ++ "__" ++ natRepr n ++ (stemSuffix dest.name).2
      = (stemSuffix dest.name).1 ++ "__" ++ natRepr m ++ (stemSuffix dest.name).2 :=
    congrArg FPath.name h
  have hdata := congrArg String.data hname
  rw [String.data_append, String.data_append, String.data_append,
    String.data_append, String.data_append, String.data_append] at hdata
  have h2 := List.append_cancel_left (List.append_cancel_right hdata)
  exact natRepr_injective (String.ext h2)

theorem candidate_fullPath_injective (dest : FPath) {n m : Nat}
    (h : fullPath (candidate dest n) = fullPath (candidate dest m)) : n = m := by
  apply candidate_name_injective dest
  have hname : (candidate dest n).name = (candidate dest m).name := by
    have h2 := congrArg List.getLast? h
    simpa [fullPath] using h2
  simp only [candidate, FPath.mk.injEq] at hname ⊢
  exact ⟨trivial, hname⟩

/-- The probe loop of `safe_move` (`while True: candidate = ...; if not
candidate.exists(): break; counter += 1`), with explicit fuel: returns
the first counter from `start` whose candidate does not exist. -/
def firstFree (fs : FS) (dest : FPath) : Nat → Nat → Option Nat
  | _, 0 => none
  | start, fuel + 1 =>
    if existsPath fs (candidate dest start) then firstFree fs dest (start + 1) fuel
    else some start

theorem firstFree_sound (fs : FS) (dest : FPath) :
    ∀ fuel start k, firstFree fs dest start fuel = some k →
      existsPath fs (candidate dest k) = false ∧ start ≤ k ∧ k < start + fuel ∧
      ∀ m, start ≤ m → m < k → existsPath fs (candidate dest m) = true := by
  intro fuel
  induction fuel with
  | zero => intro start k h; simp [firstFree] at h
  | succ fuel ih =>
    intro start k h
    simp only [firstFree] at h
    by_cases hex : existsPath fs (candidate dest start) = true
    · rw [if_pos hex] at h
      obtain ⟨h1, h2, h3, h4⟩ := ih (start + 1) k h
      refine ⟨h1, by omega, by omega, fun m hm1 hm2 => ?_⟩
      rcases Nat.eq_or_lt_of_le hm1 with rfl | hlt
      · exact hex
      · exact h4 m hlt hm2
    · rw [if_neg hex] at h
      obtain rfl : start = k := by simpa using h
      exact ⟨by simpa using hex, le_refl _, by omega, fun m hm1 hm2 => by omega⟩

theorem firstFree_isSome_of_free (fs : FS) (dest : FPath) :
    ∀ fuel start, (∃ j, start ≤ j ∧ j < start + fuel ∧
      existsPath fs (candidate dest j) = false) →
      (firstFree fs dest start fuel).isSome := by
  intro fuel
  induction fuel with
  | zero => intro start ⟨j, h1, h2, _⟩; omega
  | succ fuel ih =>
    intro start ⟨j, h1, h2, h3⟩
    simp only [firstFree]
    by_cases hex : existsPath fs (candidate dest start) = true
    · rw [if_pos hex]
      apply ih
      refine ⟨j, ?_, by omega, h3⟩
      rcases Nat.eq_or_lt_of_le h1 with rfl | hlt
      · rw [hex] at h3; cases h3
      · omega
    · rw [if_neg hex]; rfl

/-- Fuel that always suffices: one more than the number of existing
files plus existing directories. -/
def probeBound (fs : FS) : Nat := fs.files.length + fs.dirs.length + 1

theorem exists_free_candidate (fs : FS) (dest : FPath) (start : Nat) :
    ∃ j, start ≤ j ∧ j < start + probeBound fs ∧
      existsPath fs (candidate dest j) = false := by
  by_contra hall
  push_neg at hall
  have htaken : ∀ i ∈ Finset.range (probeBound fs),
      fullPath (candidate dest (start + i)) ∈
        (fs.files.map fullPath ++ fs.dirs).toFinset := by
    intro i hi
    simp only [Finset.mem_range] at hi
    have := hall (start + i) (by omega) (by omega)
    have hx : existsPath fs (candidate dest (start + i)) = true := by
      cases hb : existsPath fs (candidate dest (start + i))
      · exact absurd hb this
      · rfl
    simp only [existsPath, Bool.or_eq_true] at hx
    rcases hx with hf | hd
    · have hf' : candidate dest (start + i) ∈ fs.files := by simpa using hf
      simp only [List.toFinset_append, Finset.mem_union, List.mem_toFinset]
      exact Or.inl (List.mem_map_of_mem fullPath hf')
    · have hd' : fullPath (candidate dest (start + i)) ∈ fs.dirs := by simpa using hd
      simp only [List.toFinset_append, Finset.mem_union, List.mem_toFinset]
      exact Or.inr hd'
  have hinj : Set.InjOn (fun i => fullPath (candidate dest (start + i)))
      (Finset.range (probeBound fs)) := by
    intro a _ b _ hab
    have := candidate_fullPath_injective dest hab
    omega
  have hcard : (Finset.range (probeBound fs)).card ≤
      ((fs.files.map fullPath ++ fs.dirs).toFinset).card := by
    calc (Finset.range (probeBound fs)).card
        = ((Finset.range (probeBound fs)).image
            (fun i => fullPath (candidate dest (start + i)))).card :=
          (Finset.card_image_of_injOn hinj).symm
      _ ≤ ((fs.files.map fullPath ++ fs.dirs).toFinset).card := by
          apply Finset.card_le_card
          intro x hx
          simp only [Finset.mem_image] at hx
          obtain ⟨i, hi, rfl⟩ := hx
          exact htaken i hi
  have hlen : ((fs.files.map fullPath ++ fs.dirs).toFinset).card ≤
      fs.files.length + fs.dirs.length := by
    calc ((fs.files.map fullPath ++ fs.dirs).toFinset).card
        ≤ (fs.files.map fullPath ++ fs.dirs).length := List.toFinset_card_le _
      _ = fs.files.length + fs.dirs.length := by simp
  simp only [Finset.card_range, probeBound] at hcard
  omega

/-- The destination `safe_move` actually uses: the requested one when it
does not exist, otherwise the first free suffixed candidate starting
from counter 1. -/
def resolveDest (fs : FS) (dest : FPath) : FPath :=
  if existsPath fs dest then
    candidate dest ((firstFree fs dest 1 (probeBound fs)).getD 1)
  else dest

theorem firstFree_probeBound_isSome (fs : FS) (dest : FPath) (start : Nat) :
    (firstFree fs dest start (probeBound fs)).isSome :=
  firstFree_isSome_of_free fs dest (probeBound fs) start
    (exists_free_candidate fs dest start)

/-- `safe_move src dest dry_run` over the filesystem state: creates the
destination's ancestors, resolves collisions, and (outside dry-run)
performs the move.  Returns the new state and the destination that was
logged and used. -/
def safeMove (fs : FS) (src dest : FPath) (dryRun : Bool) : FS × FPath :=
  let fs1 := ensureDirectory fs dest.dir
  let d := resolveDest fs1 dest
  (if dryRun then fs1 else { fs1 with files := d :: fs1.files.erase src }, d)

theorem length_le_of_mem_inits {α : Type} :
    ∀ (l x : List α), x ∈ l.inits → x.length ≤ l.length := by
  intro l
  induction l with
  | nil =>
    intro x hx
    simp only [List.inits, List.mem_singleton] at hx
    simp [hx]
  | cons a l ih =>
    intro x hx
    simp only [List.inits, List.mem_cons, List.mem_map] at hx
    rcases hx with rfl | ⟨y, hy, rfl⟩
    · simp
    · simpa using ih y hy

theorem existsPath_ensureDirectory (fs : FS) (d : List String) (p : FPath)
    (hlen : d.length < (fullPath p).length) :
    existsPath (ensureDirectory fs d) p = existsPath fs p := by
  simp only [existsPath, ensureDirectory]
  have hnot : (d.inits.filter (fun x => !(fs.dirs.contains x))).contains (fullPath p)
      = false := by
    cases hc : (d.inits.filter (fun x => !(fs.dirs.contains x))).contains (fullPath p)
    · rfl
    · have hmem : fullPath p ∈ d.inits.filter (fun x => !(fs.dirs.contains x)) := by
        simpa using hc
      have := length_le_of_mem_inits d (fullPath p) (List.mem_of_mem_filter hmem)
      omega
  have : (fs.dirs ++ d.inits.filter (fun x => !(fs.dirs.contains x))).contains (fullPath p)
      = fs.dirs.contains (fullPath p) := by
    cases hc : fs.dirs.contains (fullPath p)
    · cases hc2 : (fs.dirs ++ d.inits.filter (fun x => !(fs.dirs.contains x))).contains
          (fullPath p)
      · rfl
      · exfalso
        have hmem : fullPath p ∈ fs.dirs ++ d.inits.filter (fun x => !(fs.dirs.contains x)) := by
          simpa using hc2
        rcases List.mem_append.mp hmem with hm | hm
        · have : fs.dirs.contains (fullPath p) = true := by simpa using hm
          rw [hc] at this; cases this
        · have : (d.inits.filter (fun x => !(fs.dirs.contains x))).contains (fullPath p)
              = true := by simpa using hm
          rw [hnot] at this; cases this
    · have hmem : fullPath p ∈ fs.dirs := by simpa using hc
      have : fullPath p ∈ fs.dirs ++ d.inits.filter (fun x => !(fs.dirs.contains x)) :=
        List.mem_append.mpr (Or.inl hmem)
      simpa using this
  rw [this]

theorem existsPath_ensureDirectory_dest (fs : FS) (dest : FPath) :
    existsPath (ensureDirectory fs dest.dir) dest = existsPath fs dest :=
  existsPath_ensureDirectory fs dest.dir dest (by simp [fullPath])

/-- **C1.** For every call to `safe_move` whose requested destination
already exists, the destination actually used (logged, and moved to in
apply mode) differs from the requested one, is the suffixed candidate
`{stem}__{n}{suffix}` for the smallest counter `n ≥ 1` whose candidate
does not exist, did itself not exist at resolution time, and — in apply
mode — every pre-existing file other than the moved source survives the
move: no existing file is overwritten. -/
theorem safe_move_no_overwrite (fs : FS) (src dest : FPath) (dryRun : Bool)
    (hex : existsPath fs dest = true) :
    (safeMove fs src dest dryRun).2 ≠ dest ∧
    (∃ n, 1 ≤ n ∧ (safeMove fs src dest dryRun).2 = candidate dest n ∧
      existsPath (ensureDirectory fs dest.dir) (candidate dest n) = false ∧
      ∀ m, 1 ≤ m → m < n →
        existsPath (ensureDirectory fs dest.dir) (candidate dest m) = true) ∧
    (safeMove fs src dest dryRun).2 ∉ fs.files ∧
    (∀ q, q ∈ fs.files → q ≠ src → q ∈ (safeMove fs src dest false).1.files) := by
  set fs1 := ensureDirectory fs dest.dir with hfs1
  have hex1 : existsPath fs1 dest = true := by
    rw [hfs1, existsPath_ensureDirectory_dest]; exact hex
  have hsnd : (safeMove fs src dest dryRun).2 = resolveDest fs1 dest := rfl
  have hsome := firstFree_probeBound_isSome fs1 dest 1
  obtain ⟨k, hk⟩ := Option.isSome_iff_exists.mp hsome
  have hres : resolveDest fs1 dest = candidate dest k := by
    rw [resolveDest, if_pos hex1, hk]; rfl
  obtain ⟨hfree, hk1, _, hmin⟩ := firstFree_sound fs1 dest (probeBound fs1) 1 k hk
  have hfiles1 : fs1.files = fs.files := rfl
  have hnotmem : candidate dest k ∉ fs.files := by
    intro hmem
    have : existsPath fs1 (candidate dest k) = true := by
      simp only [existsPath, Bool.or_eq_true]
      exact Or.inl (by rw [hfiles1]; simpa using hmem)
    rw [hfree] at this; cases this
  refine ⟨?_, ⟨k, hk1, by rw [hsnd, hres], hfree, hmin⟩, ?_, ?_⟩
  · rw [hsnd, hres]
    intro hcontra
    rw [hcontra] at hfree
    rw [hex1] at hfree
    cases hfree
  · rw [hsnd, hres]; exact hnotmem
  · intro q hq hqs
    show q ∈ resolveDest fs1 dest :: fs1.files.erase src
    right
    rw [hfiles1]
    exact (List.mem_erase_of_ne hqs).mpr hq

/-- **C10.** The collision-disambiguation loop of `safe_move`
terminates on every finite filesystem state: some counter `n ≥ 1` has a
non-existing candidate, and the loop's result is the candidate of the
least such counter. -/
theorem probe_loop_terminates (fs : FS) (dest : FPath)
    (hex : existsPath fs dest = true) :
    ∃ n, 1 ≤ n ∧ existsPath fs (candidate dest n) = false ∧
      resolveDest fs dest = candidate dest n ∧
      ∀ m, 1 ≤ m → existsPath fs (candidate dest m) = false → n ≤ m := by
  have hsome := firstFree_probeBound_isSome fs dest 1
  obtain ⟨k, hk⟩ := Option.isSome_iff_exists.mp hsome
  obtain ⟨hfree, hk1, _, hmin⟩ := firstFree_sound fs dest (probeBound fs) 1 k hk
  refine ⟨k, hk1, hfree, ?_, ?_⟩
  · rw [resolveDest, if_pos hex, hk]; rfl
  · intro m hm1 hmfree
    by_contra hlt
    have := hmin m hm1 (by omega)
    rw [hmfree] at this
    cases this

/-- Witness for `safe_move_no_overwrite`: a root with one file `r/a.txt`
and a requested destination equal to it. -/
theorem safe_move_no_overwrite_witness :
    existsPath ⟨[⟨["r"], "a.txt"⟩], [[]]⟩ ⟨["r"], "a.txt"⟩ = true ∧
    ((safeMove ⟨[⟨["r"], "a.txt"⟩], [[]]⟩ ⟨["s"], "x.txt"⟩ ⟨["r"], "a.txt"⟩ true).2
        ≠ ⟨["r"], "a.txt"⟩ ∧
      (∃ n, 1 ≤ n ∧
        (safeMove ⟨[⟨["r"], "a.txt"⟩], [[]]⟩ ⟨["s"], "x.txt"⟩ ⟨["r"], "a.txt"⟩ true).2
          = candidate ⟨["r"], "a.txt"⟩ n ∧
        existsPath (ensureDirectory ⟨[⟨["r"], "a.txt"⟩], [[]]⟩ ["r"])
          (candidate ⟨["r"], "a.txt"⟩ n) = false ∧
        ∀ m, 1 ≤ m → m < n →
          existsPath (ensureDirectory ⟨[⟨["r"], "a.txt"⟩], [[]]⟩ ["r"])
            (candidate ⟨["r"], "a.txt"⟩ m) = true) ∧
      (safeMove ⟨[⟨["r"], "a.txt"⟩], [[]]⟩ ⟨["s"], "x.txt"⟩ ⟨["r"], "a.txt"⟩ true).2
        ∉ ([⟨["r"], "a.txt"⟩] : List FPath) ∧
      (∀ q, q ∈ ([⟨["r"], "a.txt"⟩] : List FPath) → q ≠ ⟨["s"], "x.txt"⟩ →
        q ∈ (safeMove ⟨[⟨["r"], "a.txt"⟩], [[]]⟩ ⟨["s"], "x.txt"⟩
          ⟨["r"], "a.txt"⟩ false).1.files)) :=
  ⟨by decide, safe_move_no_overwrite ⟨[⟨["r"], "a.txt"⟩], [[]]⟩ ⟨["s"], "x.txt"⟩
    ⟨["r"], "a.txt"⟩ true (by decide)⟩

/-- Witness for `probe_loop_terminates` at the same one-file state. -/
theorem probe_loop_terminates_witness :
    existsPath ⟨[⟨["r"], "a.txt"⟩], [[]]⟩ ⟨["r"], "a.txt"⟩ = true ∧
    (∃ n, 1 ≤ n ∧
      existsPath ⟨[⟨["r"], "a.txt"⟩], [[]]⟩ (candidate ⟨["r"], "a.txt"⟩ n) = false ∧
      resolveDest ⟨[⟨["r"], "a.txt"⟩], [[]]⟩ ⟨["r"], "a.txt"⟩
        = candidate ⟨["r"], "a.txt"⟩ n ∧
      ∀ m, 1 ≤ m →
        existsPath ⟨[⟨["r"], "a.txt"⟩], [[]]⟩ (candidate ⟨["r"], "a.txt"⟩ m) = false →
        n ≤ m) :=
  ⟨by decide, probe_loop_terminates ⟨[⟨["r"], "a.txt"⟩], [[]]⟩ ⟨["r"], "a.txt"⟩ (by decide)⟩

/-! ### Logging

`print`/`print_action` output, as structured entries.  `safe_move`'s own
log line is the pair (source, resolved destination) it returns; the
orchestrators record it. -/

inductive LogEntry where
  | move (src dest : FPath) (dry : Bool)
  | encrypt (src dest : FPath) (dry : Bool)
  | deleteOriginal (p : FPath) (dry : Bool)
  | deleteFailed (p : FPath)
  | duplicate (p : FPath)
  | deleteDup (p : FPath) (dry : Bool)
  | keep (digest : String) (p : FPath)
  | wroteKey
deriving DecidableEq, Repr

/-! ### Key store (`read_or_create_key`) and encryption
(`encrypt_file`, `encrypt_tree`)

File contents are abstract byte lists; the `FS` state tracks existence
only.  The key file lives at a caller-designated path outside the
scanned tree; we model it by its optional content.  The byte reader,
the deletability of a path, and the freshly generated key are the
external collaborators, passed as parameters. -/

/-- Python `bytes.strip()` whitespace set. -/
def isSpaceByte (b : Nat) : Bool :=
  b == 32 || b == 9 || b == 10 || b == 13 || b == 11 || b == 12

/-- Python `bytes.strip()`. -/
def stripBytes (bs : List Nat) : List Nat :=
  ((bs.dropWhile isSpaceByte).reverse.dropWhile isSpaceByte).reverse

/-- `read_or_create_key`: if the key file exists its stripped content is
the key and the file is untouched; otherwise the freshly generated key
`gen` is written to the file at once and returned as generated.  The
function is not told about dry-run: creation is persisted always.
Returns (key used, new key-file content). -/
def readOrCreateKey (keyFile : Option (List Nat)) (gen : List Nat) :
    List Nat × Option (List Nat) :=
  match keyFile with
  | some data => (stripBytes data, some data)
  | none => (gen, some gen)

/-- `encrypt_file`: creates the destination's ancestors, logs, and —
outside dry-run — reads the source and writes the token.  `read src =
none` is an `OSError` from `src.read_bytes()`; neither `encrypt_file`
nor `encrypt_tree` handles it, so the returned flag `false` means the
exception propagates.  The written token's bytes do not affect path
existence, so the encryption primitive itself does not appear. -/
def encryptFile (read : FPath → Option (List Nat)) (fs : FS) (src dest : FPath)
    (dryRun : Bool) : FS × Bool :=
  let fs1 := ensureDirectory fs dest.dir
  if dryRun then (fs1, true)
  else match read src with
    | none => (fs1, false)
    | some _ =>
      ({ fs1 with files := if fs1.files.contains dest then fs1.files
          else dest :: fs1.files }, true)

/-- State threaded through `encrypt_tree`'s loop. -/
structure EncOut where
  fs : FS
  key : List Nat
  keyFile : Option (List Nat)
  log : List LogEntry
  count : Nat
  aborted : Bool
deriving DecidableEq, Repr

/-- One iteration of `encrypt_tree`'s loop over a yielded file: skip
`.enc` files, mirror the path relative to the root under the output
directory with `.enc` appended, encrypt, then optionally delete the
original (a delete failure is caught and logged).  When a previous
iteration aborted, the remaining files are never reached. -/
def encryptStep (read : FPath → Option (List Nat)) (deleteOk : FPath → Bool)
    (rootDir outputDir : List String) (dryRun removeOriginals : Bool)
    (st : EncOut) (f : FPath) : EncOut :=
  if st.aborted then st
  else if (stemSuffix f.name).2 == ".enc" then st
  else
    let target : FPath := ⟨outputDir ++ f.dir.drop rootDir.length, f.name ++ ".enc"⟩
    let step := encryptFile read st.fs f target dryRun
    let st1 := { st with fs := step.1, log := st.log ++ [LogEntry.encrypt f target dryRun] }
    if !step.2 then { st1 with aborted := true }
    else
      let st2 :=
        if removeOriginals then
          let stL := { st1 with log := st1.log ++ [LogEntry.deleteOriginal f dryRun] }
          if dryRun then stL
          else if deleteOk f then
            { stL with fs := { stL.fs with files := stL.fs.files.erase f } }
          else { stL with log := stL.log ++ [LogEntry.deleteFailed f] }
        else st1
      { st2 with count := st2.count + 1 }

/-- `encrypt_tree`: obtains or creates the key first (dry-run or not),
then processes every yielded file in order. -/
def encryptTree (files : List FPath) (read : FPath → Option (List Nat))
    (deleteOk : FPath → Bool) (rootDir outputDir : List String)
    (gen : List Nat) (keyFile : Option (List Nat)) (fs : FS)
    (dryRun removeOriginals : Bool) : EncOut :=
  let kv := readOrCreateKey keyFile gen
  let init : EncOut :=
    ⟨fs, kv.1, kv.2, if keyFile.isSome then [] else [LogEntry.wroteKey], 0, false⟩
  files.foldl (encryptStep read deleteOk rootDir outputDir dryRun removeOriginals) init

theorem encryptStep_dry_files (read : FPath → Option (List Nat))
    (deleteOk : FPath → Bool) (rootDir outputDir : List String) (ro : Bool)
    (st : EncOut) (f : FPath) :
    (encryptStep read deleteOk rootDir outputDir true ro st f).fs.files = st.fs.files := by
  by_cases h1 : st.aborted = true
  · simp [encryptStep, h1]
  · by_cases h2 : ((stemSuffix f.name).2 == ".enc") = true
    · simp [encryptStep, h1, h2]
    · by_cases h3 : ro = true <;>
        simp [encryptStep, encryptFile, ensureDirectory, h1, h2, h3]

theorem encryptStep_keyFile (read : FPath → Option (List Nat))
    (deleteOk : FPath → Bool) (rootDir outputDir : List String) (dry ro : Bool)
    (st : EncOut) (f : FPath) :
    (encryptStep read deleteOk rootDir outputDir dry ro st f).keyFile = st.keyFile ∧
    (encryptStep read deleteOk rootDir outputDir dry ro st f).key = st.key := by
  by_cases h1 : st.aborted = true
  · simp [encryptStep, h1]
  · by_cases h2 : ((stemSuffix f.name).2 == ".enc") = true
    · simp [encryptStep, h1, h2]
    · cases hr : read f <;> cases dry <;> cases ro <;>
        by_cases h4 : deleteOk f = true <;>
        simp [encryptStep, encryptFile, h1, h2, hr, h4]

theorem foldl_encryptStep_dry_files (read : FPath → Option (List Nat))
    (deleteOk : FPath → Bool) (rootDir outputDir : List String) (ro : Bool) :
    ∀ (files : List FPath) (st : EncOut),
      (files.foldl (encryptStep read deleteOk rootDir outputDir true ro) st).fs.files
        = st.fs.files := by
  intro files
  induction files with
  | nil => intro st; rfl
  | cons f rest ih =>
    intro st
    rw [List.foldl_cons, ih, encryptStep_dry_files]

theorem foldl_encryptStep_keyFile (read : FPath → Option (List Nat))
    (deleteOk : FPath → Bool) (rootDir outputDir : List String) (dry ro : Bool) :
    ∀ (files : List FPath) (st : EncOut),
      (files.foldl (encryptStep read deleteOk rootDir outputDir dry ro) st).keyFile
        = st.keyFile ∧
      (files.foldl (encryptStep read deleteOk rootDir outputDir dry ro) st).key
        = st.key := by
  intro files
  induction files with
  | nil => intro st; exact ⟨rfl, rfl⟩
  | cons f rest ih =>
    intro st
    rw [List.foldl_cons]
    obtain ⟨h1, h2⟩ := ih (encryptStep read deleteOk rootDir outputDir dry ro st f)
    obtain ⟨h3, h4⟩ := encryptStep_keyFile read deleteOk rootDir outputDir dry ro st f
    exact ⟨by rw [h1, h3], by rw [h2, h4]⟩

/-- **C2 counterexample.** A dry-run `safe_move` does touch the
filesystem: with only directory `r` existing, a dry-run move towards
`r/sub/b.txt` creates directory `r/sub` (`ensure_directory` runs before
the dry-run check). -/
theorem dry_run_creates_directory :
    ["r", "sub"] ∈ (safeMove ⟨[⟨["r"], "a.txt"⟩], [["r"]]⟩ ⟨["r"], "a.txt"⟩
      ⟨["r", "sub"], "b.txt"⟩ true).1.dirs ∧
    ["r", "sub"] ∉ ([["r"]] : List (List String)) := by decide

/-- **C2 (amended).** Under dry-run, the logged move destination is the
exact resolved destination an applied run would use (existence probing
happens in dry-run too), and no file is moved, written or deleted: the
file set is untouched by `safe_move`, `encrypt_file` and
`encrypt_tree`.  However the filesystem is not fully untouched:
missing ancestor directories of destinations are still created, and a
missing key file is still written. -/
theorem dry_run_exact_preview (fs : FS) (src dest : FPath)
    (files : List FPath) (read : FPath → Option (List Nat))
    (deleteOk : FPath → Bool) (rootDir outputDir : List String)
    (gen : List Nat) (keyFile : Option (List Nat)) (removeOriginals : Bool) :
    (safeMove fs src dest true).1.files = fs.files ∧
    (safeMove fs src dest true).2 = (safeMove fs src dest false).2 ∧
    (∀ d, d ∈ fs.dirs → d ∈ (safeMove fs src dest true).1.dirs) ∧
    (encryptFile read fs src dest true).1.files = fs.files ∧
    (encryptTree files read deleteOk rootDir outputDir gen keyFile fs
      true removeOriginals).fs.files = fs.files := by
  refine ⟨rfl, rfl, ?_, rfl, ?_⟩
  · intro d hd
    show d ∈ fs.dirs ++ _
    exact List.mem_append.mpr (Or.inl hd)
  · exact foldl_encryptStep_dry_files read deleteOk rootDir outputDir removeOriginals files _

/-- **C9.** A missing key file is created and persisted at once — in
dry-run as much as in apply mode — so a later applied run reads the
very same key instead of regenerating one; an existing key file is
read (stripped) and no new key is generated. -/
theorem key_created_once_and_reused (gen gen2 : List Nat)
    (hgen : stripBytes gen = gen)
    (files files2 : List FPath) (read read2 : FPath → Option (List Nat))
    (delOk delOk2 : FPath → Bool) (rd rd2 od od2 : List String)
    (fs fs2 : FS) (dryRun ro ro2 : Bool) :
    (encryptTree files read delOk rd od gen none fs dryRun ro).keyFile = some gen ∧
    (encryptTree files read delOk rd od gen none fs dryRun ro).key = gen ∧
    (encryptTree files2 read2 delOk2 rd2 od2 gen2 (some gen) fs2 false ro2).key = gen ∧
    (encryptTree files2 read2 delOk2 rd2 od2 gen2 (some gen) fs2 false ro2).keyFile
      = some gen ∧
    (∀ data, readOrCreateKey (some data) gen2 = (stripBytes data, some data)) := by
  obtain ⟨hk1, hk2⟩ := foldl_encryptStep_keyFile read delOk rd od dryRun ro files
    ⟨fs, (readOrCreateKey none gen).1, (readOrCreateKey none gen).2,
      [LogEntry.wroteKey], 0, false⟩
  obtain ⟨hk3, hk4⟩ := foldl_encryptStep_keyFile read2 delOk2 rd2 od2 false ro2 files2
    ⟨fs2, (readOrCreateKey (some gen) gen2).1, (readOrCreateKey (some gen) gen2).2,
      [], 0, false⟩
  refine ⟨?_, ?_, ?_, ?_, fun _ => rfl⟩
  · exact hk1
  · exact hk2
  · rw [show (encryptTree files2 read2 delOk2 rd2 od2 gen2 (some gen) fs2 false ro2).key
        = stripBytes gen from hk4, hgen]
  · exact hk3

/-- Witness for `key_created_once_and_reused`: key bytes `[65]` (no
whitespace), one file, trivial collaborators. -/
theorem key_created_once_and_reused_witness :
    stripBytes [65] = [65] ∧
    ((encryptTree [⟨["r"], "a.txt"⟩] (fun _ => some [0]) (fun _ => true) ["r"] ["o"]
        [65] none ⟨[⟨["r"], "a.txt"⟩], [["r"]]⟩ true false).keyFile = some [65] ∧
      (encryptTree [⟨["r"], "a.txt"⟩] (fun _ => some [0]) (fun _ => true) ["r"] ["o"]
        [65] none ⟨[⟨["r"], "a.txt"⟩], [["r"]]⟩ true false).key = [65] ∧
      (encryptTree [⟨["r"], "a.txt"⟩] (fun _ => some [0]) (fun _ => true) ["r"] ["o"]
        [66] (some [65]) ⟨[⟨["r"], "a.txt"⟩], [["r"]]⟩ false false).key = [65] ∧
      (encryptTree [⟨["r"], "a.txt"⟩] (fun _ => some [0]) (fun _ => true) ["r"] ["o"]
        [66] (some [65]) ⟨[⟨["r"], "a.txt"⟩], [["r"]]⟩ false false).keyFile = some [65] ∧
      (∀ data, readOrCreateKey (some data) [66] = (stripBytes data, some data))) :=
  ⟨by decide, key_created_once_and_reused [65] [66] (by decide)
    [⟨["r"], "a.txt"⟩] [⟨["r"], "a.txt"⟩] (fun _ => some [0]) (fun _ => some [0])
    (fun _ => true) (fun _ => true) ["r"] ["r"] ["o"] ["o"]
    ⟨[⟨["r"], "a.txt"⟩], [["r"]]⟩ ⟨[⟨["r"], "a.txt"⟩], [["r"]]⟩ true false false⟩

theorem foldl_encryptStep_aborted (read : FPath → Option (List Nat))
    (delOk : FPath → Bool) (rd od : List String) (dry ro : Bool) :
    ∀ (rest : List FPath) (st : EncOut), st.aborted = true →
      rest.foldl (encryptStep read delOk rd od dry ro) st = st := by
  intro rest
  induction rest with
  | nil => intro st _; rfl
  | cons f rest ih =>
    intro st hab
    rw [List.foldl_cons, show encryptStep read delOk rd od dry ro st f = st by
      simp [encryptStep, hab]]
    exact ih st hab

/-- **C4 counterexample.** `encrypt_tree` has no per-file error
handler: with two files under root `r` and a reader that fails on
`r/a.txt`, the applied run aborts at the first file — nothing is
encrypted and `r/b.txt` is never processed — instead of skipping the
failing file and continuing. -/
theorem read_error_aborts_run :
    (encryptTree [⟨["r"], "a.txt"⟩, ⟨["r"], "b.txt"⟩]
      (fun p => if p = ⟨["r"], "a.txt"⟩ then none else some [0])
      (fun _ => true) ["r"] ["o"] [65] (some [65])
      ⟨[⟨["r"], "a.txt"⟩, ⟨["r"], "b.txt"⟩], [["r"]]⟩ false false).aborted = true ∧
    (encryptTree [⟨["r"], "a.txt"⟩, ⟨["r"], "b.txt"⟩]
      (fun p => if p = ⟨["r"], "a.txt"⟩ then none else some [0])
      (fun _ => true) ["r"] ["o"] [65] (some [65])
      ⟨[⟨["r"], "a.txt"⟩, ⟨["r"], "b.txt"⟩], [["r"]]⟩ false false).count = 0 ∧
    (⟨["o"], "b.txt.enc"⟩ : FPath) ∉ (encryptTree [⟨["r"], "a.txt"⟩, ⟨["r"], "b.txt"⟩]
      (fun p => if p = ⟨["r"], "a.txt"⟩ then none else some [0])
      (fun _ => true) ["r"] ["o"] [65] (some [65])
      ⟨[⟨["r"], "a.txt"⟩, ⟨["r"], "b.txt"⟩], [["r"]]⟩ false false).fs.files := by
  decide

/-- **C4 (amended).** Per-item error recovery in `encrypt_tree` covers
deletion of originals only: a failed delete of `g` is logged
(`deleteFailed`) and the run continues, the file still counted.  A
failed *read* of `f`, however, propagates: the step marks the run
aborted and every remaining file is left unprocessed. -/
theorem encrypt_per_item_errors (read : FPath → Option (List Nat))
    (delOk : FPath → Bool) (rd od : List String) (ro : Bool)
    (st : EncOut) (f g : FPath) (rest : List FPath)
    (hab : st.aborted = false)
    (henc : ((stemSuffix f.name).2 == ".enc") = false)
    (hgenc : ((stemSuffix g.name).2 == ".enc") = false)
    (hgread : read g ≠ none) (hgdel : delOk g = false)
    (hread : read f = none) :
    (encryptStep read delOk rd od false true st g).aborted = false ∧
    (encryptStep read delOk rd od false true st g).count = st.count + 1 ∧
    (encryptStep read delOk rd od false true st g).log = st.log ++
      [LogEntry.encrypt g ⟨od ++ g.dir.drop rd.length, g.name ++ ".enc"⟩ false,
        LogEntry.deleteOriginal g false, LogEntry.deleteFailed g] ∧
    (encryptStep read delOk rd od false ro st f).aborted = true ∧
    rest.foldl (encryptStep read delOk rd od false ro)
      (encryptStep read delOk rd od false ro st f)
      = encryptStep read delOk rd od false ro st f := by
  have habort : (encryptStep read delOk rd od false ro st f).aborted = true := by
    simp [encryptStep, encryptFile, hab, henc, hread]
  cases hrg : read g with
  | none => exact absurd hrg hgread
  | some v =>
    refine ⟨?_, ?_, ?_, habort, foldl_encryptStep_aborted read delOk rd od false ro rest
      _ habort⟩ <;>
      simp [encryptStep, encryptFile, hab, hgenc, hrg, hgdel]

/-- Witness for `encrypt_per_item_errors`: reader fails on `r/a.txt`,
succeeds on `r/b.txt`; nothing is deletable. -/
theorem encrypt_per_item_errors_witness :
    ((⟨⟨[⟨["r"], "a.txt"⟩, ⟨["r"], "b.txt"⟩], [["r"]]⟩, [65], some [65], [], 0, false⟩ :
        EncOut).aborted = false ∧
      ((stemSuffix "a.txt").2 == ".enc") = false ∧
      ((stemSuffix "b.txt").2 == ".enc") = false ∧
      (fun p => if p = (⟨["r"], "a.txt"⟩ : FPath) then none else some [0])
        (⟨["r"], "b.txt"⟩ : FPath) ≠ none ∧
      (fun (_ : FPath) => false) (⟨["r"], "b.txt"⟩ : FPath) = false ∧
      (fun p => if p = (⟨["r"], "a.txt"⟩ : FPath) then none else some [0])
        (⟨["r"], "a.txt"⟩ : FPath) = none) ∧
    ((encryptStep (fun p => if p = ⟨["r"], "a.txt"⟩ then none else some [0])
        (fun _ => false) ["r"] ["o"] false true
        ⟨⟨[⟨["r"], "a.txt"⟩, ⟨["r"], "b.txt"⟩], [["r"]]⟩, [65], some [65], [], 0, false⟩
        ⟨["r"], "b.txt"⟩).aborted = false ∧
      (encryptStep (fun p => if p = ⟨["r"], "a.txt"⟩ then none else some [0])
        (fun _ => false) ["r"] ["o"] false true
        ⟨⟨[⟨["r"], "a.txt"⟩, ⟨["r"], "b.txt"⟩], [["r"]]⟩, [65], some [65], [], 0, false⟩
        ⟨["r"], "b.txt"⟩).count = 0 + 1 ∧
      (encryptStep (fun p => if p = ⟨["r"], "a.txt"⟩ then none else some [0])
        (fun _ => false) ["r"] ["o"] false true
        ⟨⟨[⟨["r"], "a.txt"⟩, ⟨["r"], "b.txt"⟩], [["r"]]⟩, [65], some [65], [], 0, false⟩
        ⟨["r"], "b.txt"⟩).log = [] ++
        [LogEntry.encrypt ⟨["r"], "b.txt"⟩
            ⟨["o"] ++ (["r"] : List String).drop (["r"] : List String).length, "b.txt" ++ ".enc"⟩ false,
          LogEntry.deleteOriginal ⟨["r"], "b.txt"⟩ false,
          LogEntry.deleteFailed ⟨["r"], "b.txt"⟩] ∧
      (encryptStep (fun p => if p = ⟨["r"], "a.txt"⟩ then none else some [0])
        (fun _ => false) ["r"] ["o"] false false
        ⟨⟨[⟨["r"], "a.txt"⟩, ⟨["r"], "b.txt"⟩], [["r"]]⟩, [65], some [65], [], 0, false⟩
        ⟨["r"], "a.txt"⟩).aborted = true ∧
      [(⟨["r"], "b.txt"⟩ : FPath)].foldl
        (encryptStep (fun p => if p = ⟨["r"], "a.txt"⟩ then none else some [0])
          (fun _ => false) ["r"] ["o"] false false)
        (encryptStep (fun p => if p = ⟨["r"], "a.txt"⟩ then none else some [0])
          (fun _ => false) ["r"] ["o"] false false
          ⟨⟨[⟨["r"], "a.txt"⟩, ⟨["r"], "b.txt"⟩], [["r"]]⟩, [65], some [65], [], 0, false⟩
          ⟨["r"], "a.txt"⟩)
        = encryptStep (fun p => if p = ⟨["r"], "a.txt"⟩ then none else some [0])
          (fun _ => false) ["r"] ["o"] false false
          ⟨⟨[⟨["r"], "a.txt"⟩, ⟨["r"], "b.txt"⟩], [["r"]]⟩, [65], some [65], [], 0, false⟩
          ⟨["r"], "a.txt"⟩) :=
  ⟨⟨by decide, by decide, by decide, by decide, by decide, by decide⟩,
    encrypt_per_item_errors (fun p => if p = ⟨["r"], "a.txt"⟩ then none else some [0])
      (fun _ => false) ["r"] ["o"] false
      ⟨⟨[⟨["r"], "a.txt"⟩, ⟨["r"], "b.txt"⟩], [["r"]]⟩, [65], some [65], [], 0, false⟩
      ⟨["r"], "a.txt"⟩ ⟨["r"], "b.txt"⟩ [⟨["r"], "b.txt"⟩]
      (by decide) (by decide) (by decide) (by decide) (by decide) (by decide)⟩

/-! ### Duplicate detection (`group_files_by_size`, `find_duplicates`)

The byte-size oracle `stat` (`None` = `OSError`) and the content hash
`hash` (`None` = read error) are external collaborators.  Python dicts
preserve insertion order; we model them as association lists to which
`setdefault(k, []).append(v)` appends. -/

/-- `m.setdefault(k, []).append(v)` on an insertion-ordered dict. -/
def assocAppend {α β : Type} [DecidableEq α] :
    List (α × List β) → α → β → List (α × List β)
  | [], k, v => [(k, [v])]
  | (k0, vs) :: rest, k, v =>
    if k0 = k then (k0, vs ++ [v]) :: rest
    else (k0, vs) :: assocAppend rest k v

/-- `group_files_by_size`: stat each file (a stat error skips it) and
bucket by exact byte size, in traversal order. -/
def groupFilesBySize (stat : FPath → Option Nat) (files : List FPath) :
    List (Nat × List FPath) :=
  files.foldl (fun m p =>
    match stat p with
    | none => m
    | some sz => assocAppend m sz p) []

/-- The paths on which `find_duplicates` invokes `compute_file_hash`:
every member of every size bucket with two or more files (the call
happens whether or not the hash then errors). -/
def hashCalls (bySize : List (Nat × List FPath)) : List FPath :=
  bySize.flatMap (fun b => if b.2.length < 2 then [] else b.2)

/-- `find_duplicates`: hash the members of multi-member size buckets (a
hashing error skips that file) and keep only digest groups of two or
more files. -/
def findDuplicates (stat : FPath → Option Nat) (hash : FPath → Option String)
    (files : List FPath) : List (String × List FPath) :=
  ((groupFilesBySize stat files).foldl (fun m b =>
    if b.2.length < 2 then m
    else b.2.foldl (fun m2 p =>
      match hash p with
      | none => m2
      | some d => assocAppend m2 d p) m) []).filter (fun g => 1 < g.2.length)

/-! ### `dedupe_action` -/

inductive DedupeMode where
  | report | move | delete
deriving DecidableEq, Repr

/-- `min(paths, key=lambda p: len(str(p)))` on `first :: rest`:
Python's `min` scans left to right and replaces the best only on a
strictly smaller key, so the first minimum wins. -/
def minByLen (first : FPath) (rest : List FPath) : FPath :=
  rest.foldl (fun best p => if pathLen p < pathLen best then p else best) first

/-- `[p for p in paths if p != original]` with `original` the kept
member. -/
def othersOf (paths : List FPath) : List FPath :=
  match paths with
  | [] => []
  | p :: rest => (p :: rest).filter (fun q => decide (q ≠ minByLen p rest))

/-- State threaded through `dedupe_action`: the filesystem, the log and
the moved-or-deleted counter. -/
structure DedupeState where
  fs : FS
  log : List LogEntry
  operated : Nat
deriving DecidableEq, Repr

/-- Processing of one non-kept duplicate according to the mode: report
logs it; move relocates it (flat, by basename) into the duplicates
directory through `safe_move` and counts it (dry-run included); delete
unlinks outside dry-run, counting only a successful unlink and logging
a failed one. -/
def processDup (mode : DedupeMode) (duplicatesDir : List String)
    (deleteOk : FPath → Bool) (dryRun : Bool) (st : DedupeState) (dup : FPath) :
    DedupeState :=
  match mode with
  | .report => { st with log := st.log ++ [LogEntry.duplicate dup] }
  | .move =>
    let mv := safeMove st.fs dup ⟨duplicatesDir, dup.name⟩ dryRun
    { st with
        fs := mv.1,
        log := st.log ++ [LogEntry.move dup mv.2 dryRun],
        operated := st.operated + 1 }
  | .delete =>
    let st1 := { st with log := st.log ++ [LogEntry.deleteDup dup dryRun] }
    if dryRun then st1
    else if deleteOk dup then
      { st1 with
          fs := { st1.fs with files := st1.fs.files.erase dup },
          operated := st1.operated + 1 }
    else { st1 with log := st1.log ++ [LogEntry.deleteFailed dup] }

/-- One duplicate group: keep the shortest-path member, operate on all
the others.  (Groups from `find_duplicates` always have two or more
members, so the empty case is unreachable.) -/
def processGroup (mode : DedupeMode) (duplicatesDir : List String)
    (deleteOk : FPath → Bool) (dryRun : Bool) (st : DedupeState)
    (g : String × List FPath) : DedupeState :=
  match g.2 with
  | [] => st
  | p :: rest =>
    (othersOf (p :: rest)).foldl (processDup mode duplicatesDir deleteOk dryRun)
      { st with log := st.log ++ [LogEntry.keep g.1 (minByLen p rest)] }

/-- `dedupe_action` over the groups `find_duplicates` produced. -/
def dedupeAction (groups : List (String × List FPath)) (mode : DedupeMode)
    (duplicatesDir : List String) (deleteOk : FPath → Bool) (dryRun : Bool)
    (fs : FS) : DedupeState :=
  groups.foldl (processGroup mode duplicatesDir deleteOk dryRun) ⟨fs, [], 0⟩

theorem assocAppend_sound {α β : Type} [DecidableEq α]
    (stat : β → Option α) (k : α) (v : β) (hv : stat v = some k) :
    ∀ (m : List (α × List β)),
      (∀ b ∈ m, ∀ p ∈ b.2, stat p = some b.1) →
      ∀ b ∈ assocAppend m k v, ∀ p ∈ b.2, stat p = some b.1 := by
  intro m
  induction m with
  | nil =>
    intro _ b hb q hq
    simp only [assocAppend, List.mem_singleton] at hb
    subst hb
    simp only [List.mem_singleton] at hq
    subst hq
    exact hv
  | cons b0 rest ih =>
    obtain ⟨k0, vs⟩ := b0
    intro hm b hb q hq
    by_cases h : k0 = k
    · subst h
      rw [show assocAppend ((k0, vs) :: rest) k0 v = (k0, vs ++ [v]) :: rest from by
        simp [assocAppend]] at hb
      rcases List.mem_cons.mp hb with rfl | hb
      · rcases List.mem_append.mp hq with hq1 | hq1
        · exact hm (k0, vs) (List.mem_cons_self _ _) q hq1
        · have : q = v := by simpa using hq1
          subst this
          exact hv
      · exact hm b (List.mem_cons_of_mem _ hb) q hq
    · rw [show assocAppend ((k0, vs) :: rest) k v = (k0, vs) :: assocAppend rest k v from by
        simp [assocAppend, h]] at hb
      rcases List.mem_cons.mp hb with rfl | hb
      · exact hm (k0, vs) (List.mem_cons_self _ _) q hq
      · exact ih (fun c hc => hm c (List.mem_cons_of_mem _ hc)) b hb q hq

theorem groupFilesBySize_sound (stat : FPath → Option Nat) :
    ∀ (files : List FPath) (m : List (Nat × List FPath)),
      (∀ b ∈ m, ∀ p ∈ b.2, stat p = some b.1) →
      ∀ b ∈ files.foldl (fun m p =>
          match stat p with
          | none => m
          | some sz => assocAppend m sz p) m,
        ∀ p ∈ b.2, stat p = some b.1 := by
  intro files
  induction files with
  | nil => intro m hm; exact hm
  | cons f rest ih =>
    intro m hm
    rw [List.foldl_cons]
    cases hf : stat f with
    | none => simp only [hf]; exact ih m hm
    | some sz =>
      simp only [hf]
      exact ih _ (assocAppend_sound stat sz f hf m hm)

/-- **C7.** A file whose size bucket is the only place it could be
hashed — its stat succeeds and every bucket of its size is a singleton
— is never passed to `compute_file_hash`; and every group
`find_duplicates` reports has at least two members. -/
theorem unique_size_not_hashed (stat : FPath → Option Nat)
    (hash : FPath → Option String) (files : List FPath) (p : FPath) (sz : Nat)
    (hstat : stat p = some sz)
    (huniq : ∀ b ∈ groupFilesBySize stat files, b.1 = sz → b.2.length = 1) :
    p ∉ hashCalls (groupFilesBySize stat files) ∧
    ∀ g ∈ findDuplicates stat hash files, 2 ≤ g.2.length := by
  constructor
  · intro hmem
    rw [hashCalls, List.mem_flatMap] at hmem
    obtain ⟨b, hb, hpb⟩ := hmem
    by_cases hlen : b.2.length < 2
    · rw [if_pos hlen] at hpb
      cases hpb
    · rw [if_neg hlen] at hpb
      have hsb : stat p = some b.1 :=
        groupFilesBySize_sound stat files [] (by simp) b hb p hpb
      rw [hstat] at hsb
      have hbs : b.1 = sz := by
        injection hsb with h
        omega
      have := huniq b hb hbs
      omega
  · intro g hg
    have := List.of_mem_filter hg
    simpa using this

/-- Witness for `unique_size_not_hashed`: `r/u.txt` is the only file of
size 1, next to two files of size 2. -/
theorem unique_size_not_hashed_witness :
    ((fun q : FPath => if q = ⟨["r"], "u.txt"⟩ then some 1 else some 2)
        (⟨["r"], "u.txt"⟩ : FPath) = some 1 ∧
      ∀ b ∈ groupFilesBySize
          (fun q : FPath => if q = ⟨["r"], "u.txt"⟩ then some 1 else some 2)
          [⟨["r"], "u.txt"⟩, ⟨["r"], "a.txt"⟩, ⟨["r"], "b.txt"⟩],
        b.1 = 1 → b.2.length = 1) ∧
    ((⟨["r"], "u.txt"⟩ : FPath) ∉ hashCalls (groupFilesBySize
        (fun q : FPath => if q = ⟨["r"], "u.txt"⟩ then some 1 else some 2)
        [⟨["r"], "u.txt"⟩, ⟨["r"], "a.txt"⟩, ⟨["r"], "b.txt"⟩]) ∧
      ∀ g ∈ findDuplicates
          (fun q : FPath => if q = ⟨["r"], "u.txt"⟩ then some 1 else some 2)
          (fun _ => some "h")
          [⟨["r"], "u.txt"⟩, ⟨["r"], "a.txt"⟩, ⟨["r"], "b.txt"⟩],
        2 ≤ g.2.length) :=
  ⟨⟨by decide, by decide⟩,
    unique_size_not_hashed
      (fun q : FPath => if q = ⟨["r"], "u.txt"⟩ then some 1 else some 2)
      (fun _ => some "h")
      [⟨["r"], "u.txt"⟩, ⟨["r"], "a.txt"⟩, ⟨["r"], "b.txt"⟩]
      ⟨["r"], "u.txt"⟩ 1 (by decide) (by decide)⟩

/-- The log lines report mode produces for one duplicate group: the
kept member, then one "duplicate" line per non-kept member. -/
def reportLogOf (g : String × List FPath) : List LogEntry :=
  match g.2 with
  | [] => []
  | p :: rest =>
    LogEntry.keep g.1 (minByLen p rest)
      :: (othersOf (p :: rest)).map LogEntry.duplicate

theorem foldl_processDup_report (dupsDir : List String) (delOk : FPath → Bool)
    (dryRun : Bool) :
    ∀ (dups : List FPath) (st : DedupeState),
      dups.foldl (processDup .report dupsDir delOk dryRun) st
        = { st with log := st.log ++ dups.map LogEntry.duplicate } := by
  intro dups
  induction dups with
  | nil => intro st; simp
  | cons d rest ih =>
    intro st
    rw [List.foldl_cons, ih]
    simp [processDup]

theorem processGroup_report (dupsDir : List String) (delOk : FPath → Bool)
    (dryRun : Bool) (st : DedupeState) (g : String × List FPath) :
    processGroup .report dupsDir delOk dryRun st g
      = { st with log := st.log ++ reportLogOf g } := by
  obtain ⟨digest, paths⟩ := g
  cases paths with
  | nil => simp [processGroup, reportLogOf]
  | cons p rest =>
    show (othersOf (p :: rest)).foldl _ _ = _
    rw [foldl_processDup_report]
    simp [reportLogOf]

/-- **C8.** Dedupe in report mode never mutates the filesystem —
whatever the apply flag says — and its whole output is, per group, the
kept member plus one "duplicate" log line for each non-kept member. -/
theorem report_mode_never_mutates (groups : List (String × List FPath))
    (dupsDir : List String) (delOk : FPath → Bool) (dryRun : Bool) (fs : FS) :
    (dedupeAction groups .report dupsDir delOk dryRun fs).fs = fs ∧
    (dedupeAction groups .report dupsDir delOk dryRun fs).operated = 0 ∧
    (dedupeAction groups .report dupsDir delOk dryRun fs).log
      = groups.flatMap reportLogOf := by
  have key : ∀ (gs : List (String × List FPath)) (st : DedupeState),
      gs.foldl (processGroup .report dupsDir delOk dryRun) st
        = { st with log := st.log ++ gs.flatMap reportLogOf } := by
    intro gs
    induction gs with
    | nil => intro st; simp
    | cons g rest ih =>
      intro st
      rw [List.foldl_cons, processGroup_report, ih]
      simp
  rw [dedupeAction, key]
  exact ⟨rfl, rfl, by simp⟩

theorem minByLen_cons (first r : FPath) (rest : List FPath) :
    minByLen first (r :: rest)
      = minByLen (if pathLen r < pathLen first then r else first) rest := rfl

theorem minByLen_le :
    ∀ (rest : List FPath) (first : FPath),
      pathLen (minByLen first rest) ≤ pathLen first ∧
      ∀ q ∈ rest, pathLen (minByLen first rest) ≤ pathLen q := by
  intro rest
  induction rest with
  | nil => intro first; exact ⟨le_refl _, by simp⟩
  | cons r rest ih =>
    intro first
    rw [minByLen_cons]
    by_cases h : pathLen r < pathLen first
    · rw [if_pos h]
      obtain ⟨h1, h2⟩ := ih r
      refine ⟨by omega, fun q hq => ?_⟩
      rcases List.mem_cons.mp hq with rfl | hq
      · exact h1
      · exact h2 q hq
    · rw [if_neg h]
      obtain ⟨h1, h2⟩ := ih first
      refine ⟨h1, fun q hq => ?_⟩
      rcases List.mem_cons.mp hq with rfl | hq
      · omega
      · exact h2 q hq

theorem minByLen_decomp :
    ∀ (rest : List FPath) (first : FPath),
      ∃ l1 l2, first :: rest = l1 ++ minByLen first rest :: l2 ∧
        ∀ q ∈ l1, pathLen (minByLen first rest) < pathLen q := by
  intro rest
  induction rest with
  | nil => intro first; exact ⟨[], [], rfl, by simp⟩
  | cons r rest ih =>
    intro first
    rw [minByLen_cons]
    by_cases h : pathLen r < pathLen first
    · rw [if_pos h]
      obtain ⟨l1, l2, heq, hlt⟩ := ih r
      refine ⟨first :: l1, l2, ?_, ?_⟩
      · rw [List.cons_append, ← heq]
      · intro q hq
        rcases List.mem_cons.mp hq with rfl | hq
        · have := (minByLen_le rest r).1
          omega
        · exact hlt q hq
    · rw [if_neg h]
      obtain ⟨l1, l2, heq, hlt⟩ := ih first
      cases l1 with
      | nil =>
        have hk : first = minByLen first rest := by
          have := congrArg (fun l => l.head?) heq
          simpa using this
        refine ⟨[], r :: rest, by rw [List.nil_append, ← hk], by simp⟩
      | cons a l1' =>
        rw [List.cons_append] at heq
        have ha : first = a := by
          have := congrArg (fun l => l.head?) heq
          simpa using this
        have hrest : rest = l1' ++ minByLen first rest :: l2 := by
          have := congrArg List.tail heq
          simpa using this
        have hfirst_lt : pathLen (minByLen first rest) < pathLen first := by
          have := hlt a (List.mem_cons_self _ _)
          rw [← ha] at this
          exact this
        refine ⟨first :: r :: l1', l2, ?_, ?_⟩
        · rw [List.cons_append, List.cons_append, ← hrest]
        · intro q hq
          rcases List.mem_cons.mp hq with rfl | hq
          · exact hfirst_lt
          · rcases List.mem_cons.mp hq with rfl | hq
            · omega
            · exact hlt q (List.mem_cons_of_mem _ hq)

theorem minByLen_mem (first : FPath) (rest : List FPath) :
    minByLen first rest ∈ first :: rest := by
  obtain ⟨l1, l2, heq, _⟩ := minByLen_decomp rest first
  rw [heq]
  exact List.mem_append.mpr (Or.inr (List.mem_cons_self _ _))

/-- **C3.** In every duplicate group `p :: rest` (with distinct
members, as produced by the grouper), the kept member is the group
member of minimal path-string length — more precisely, the first such
member in group order, which makes the selection deterministic for a
fixed input — and it is exactly the remaining members, all of them,
that `dedupe_action` then reports, moves or deletes according to the
mode. -/
theorem dedupe_keeps_shortest (p : FPath) (rest : List FPath)
    (hnd : (p :: rest).Nodup) :
    minByLen p rest ∈ p :: rest ∧
    (∀ q ∈ p :: rest, pathLen (minByLen p rest) ≤ pathLen q) ∧
    (∃ l1 l2, p :: rest = l1 ++ minByLen p rest :: l2 ∧
      ∀ q ∈ l1, pathLen (minByLen p rest) < pathLen q) ∧
    othersOf (p :: rest) = (p :: rest).erase (minByLen p rest) ∧
    (othersOf (p :: rest)).length = rest.length ∧
    minByLen p rest ∉ othersOf (p :: rest) ∧
    (∀ q ∈ p :: rest, q ≠ minByLen p rest → q ∈ othersOf (p :: rest)) ∧
    ∀ mode dupsDir delOk dryRun st digest,
      processGroup mode dupsDir delOk dryRun st (digest, p :: rest)
        = (othersOf (p :: rest)).foldl (processDup mode dupsDir delOk dryRun)
            { st with log := st.log ++ [LogEntry.keep digest (minByLen p rest)] } := by
  have hmem := minByLen_mem p rest
  have herase : othersOf (p :: rest) = (p :: rest).erase (minByLen p rest) := by
    rw [othersOf, hnd.erase_eq_filter]
    congr 1
    funext q
    by_cases h : q = minByLen p rest <;> simp [h, bne]
  refine ⟨hmem, ?_, minByLen_decomp rest p, herase, ?_, ?_, ?_, ?_⟩
  · intro q hq
    rcases List.mem_cons.mp hq with rfl | hq
    · exact (minByLen_le rest q).1
    · exact (minByLen_le rest p).2 q hq
  · rw [herase, List.length_erase_of_mem hmem]
    simp
  · intro hcontra
    rw [othersOf] at hcontra
    have := List.of_mem_filter hcontra
    simp at this
  · intro q hq hne
    rw [othersOf]
    exact List.mem_filter.mpr ⟨hq, by simpa using hne⟩
  · intro mode dupsDir delOk dryRun st digest
    rfl

/-- Witness for `dedupe_keeps_shortest`: group `[r/bbb.txt, r/a.txt]`
keeps `r/a.txt`, the shorter path. -/
theorem dedupe_keeps_shortest_witness :
    ((⟨["r"], "bbb.txt"⟩ : FPath) :: [⟨["r"], "a.txt"⟩]).Nodup ∧
    (minByLen ⟨["r"], "bbb.txt"⟩ [⟨["r"], "a.txt"⟩]
        ∈ (⟨["r"], "bbb.txt"⟩ : FPath) :: [⟨["r"], "a.txt"⟩] ∧
      (∀ q ∈ (⟨["r"], "bbb.txt"⟩ : FPath) :: [⟨["r"], "a.txt"⟩],
        pathLen (minByLen ⟨["r"], "bbb.txt"⟩ [⟨["r"], "a.txt"⟩]) ≤ pathLen q) ∧
      (∃ l1 l2, (⟨["r"], "bbb.txt"⟩ : FPath) :: [⟨["r"], "a.txt"⟩]
          = l1 ++ minByLen ⟨["r"], "bbb.txt"⟩ [⟨["r"], "a.txt"⟩] :: l2 ∧
        ∀ q ∈ l1, pathLen (minByLen ⟨["r"], "bbb.txt"⟩ [⟨["r"], "a.txt"⟩]) < pathLen q) ∧
      othersOf ((⟨["r"], "bbb.txt"⟩ : FPath) :: [⟨["r"], "a.txt"⟩])
        = ((⟨["r"], "bbb.txt"⟩ : FPath) :: [⟨["r"], "a.txt"⟩]).erase
            (minByLen ⟨["r"], "bbb.txt"⟩ [⟨["r"], "a.txt"⟩]) ∧
      (othersOf ((⟨["r"], "bbb.txt"⟩ : FPath) :: [⟨["r"], "a.txt"⟩])).length
        = [(⟨["r"], "a.txt"⟩ : FPath)].length ∧
      minByLen ⟨["r"], "bbb.txt"⟩ [⟨["r"], "a.txt"⟩]
        ∉ othersOf ((⟨["r"], "bbb.txt"⟩ : FPath) :: [⟨["r"], "a.txt"⟩]) ∧
      (∀ q ∈ (⟨["r"], "bbb.txt"⟩ : FPath) :: [⟨["r"], "a.txt"⟩],
        q ≠ minByLen ⟨["r"], "bbb.txt"⟩ [⟨["r"], "a.txt"⟩] →
        q ∈ othersOf ((⟨["r"], "bbb.txt"⟩ : FPath) :: [⟨["r"], "a.txt"⟩])) ∧
      ∀ mode dupsDir delOk dryRun st digest,
        processGroup mode dupsDir delOk dryRun st
            (digest, (⟨["r"], "bbb.txt"⟩ : FPath) :: [⟨["r"], "a.txt"⟩])
          = (othersOf ((⟨["r"], "bbb.txt"⟩ : FPath) :: [⟨["r"], "a.txt"⟩])).foldl
              (processDup mode dupsDir delOk dryRun)
              { st with log := st.log ++ [LogEntry.keep digest
                  (minByLen ⟨["r"], "bbb.txt"⟩ [⟨["r"], "a.txt"⟩])] }) :=
  ⟨by decide, dedupe_keeps_shortest ⟨["r"], "bbb.txt"⟩ [⟨["r"], "a.txt"⟩] (by decide)⟩

/-! ### `organize_files` -/

inductive OrganizeMode where
  | ext | date
deriving DecidableEq, Repr

/-- `str.lower()` on one character (ASCII range; the traversal's
names of interest). -/
def lowerChar (c : Char) : Char :=
  if 'A' ≤ c ∧ c ≤ 'Z' then Char.ofNat (c.toNat + 32) else c

/-- `file_path.suffix.lower().lstrip('.') or 'noext'`. -/
def extOf (name : String) : String :=
  let e : List Char := ((stemSuffix name).2.data.map lowerChar).dropWhile (fun c => c == '.')
  if e.isEmpty then "noext" else ⟨e⟩

/-- The destination directory `organize_files` computes for a file;
`none` when the date mode's stat raises (the file is then skipped).
The mtime collaborator already yields local (year, month). -/
def targetDirOf (mode : OrganizeMode) (organizeDir : List String)
    (mtime : FPath → Option (Nat × Nat)) (p : FPath) : Option (List String) :=
  match mode with
  | .ext => some (organizeDir ++ [extOf p.name])
  | .date => (mtime p).map (fun ym => organizeDir ++ [pad4 ym.1, pad2 ym.2])

/-- State threaded through `organize_files`' loop. -/
structure OrganizeState where
  fs : FS
  count : Nat
  log : List LogEntry
deriving DecidableEq, Repr

/-- One file of `organize_files`' loop: compute the target directory
(a stat failure skips the file); skip — uncounted — when the
destination resolves to the file's current location; otherwise move
through `safe_move` and count. -/
def organizeStep (mode : OrganizeMode) (organizeDir : List String)
    (mtime : FPath → Option (Nat × Nat)) (dryRun : Bool)
    (st : OrganizeState) (f : FPath) : OrganizeState :=
  match targetDirOf mode organizeDir mtime f with
  | none => st
  | some td =>
    if (⟨td, f.name⟩ : FPath) = f then st
    else
      let mv := safeMove st.fs f ⟨td, f.name⟩ dryRun
      ⟨mv.1, st.count + 1, st.log ++ [LogEntry.move f mv.2 dryRun]⟩

/-- `organize_files` over the traversal's yield. -/
def organizeFiles (files : List FPath) (mode : OrganizeMode)
    (organizeDir : List String) (mtime : FPath → Option (Nat × Nat))
    (dryRun : Bool) (fs : FS) : OrganizeState :=
  files.foldl (organizeStep mode organizeDir mtime dryRun) ⟨fs, 0, []⟩

/-- **C6 counterexample.** Organize is not idempotent.  Two files named
`foo.` (trailing dot: empty Python suffix, hence the `noext` bucket)
collide; the second one is disambiguated to `foo.__1`, whose recomputed
extension is `__1`, no longer `noext`.  The first applied `ext` run
produces exactly `org/noext/foo.__1` and `org/noext/foo.`; a second run
over that result performs one further move instead of zero. -/
theorem organize_second_run_moves :
    (organizeFiles [⟨["r", "a"], "foo."⟩, ⟨["r", "b"], "foo."⟩] OrganizeMode.ext
      ["r", "org"] (fun _ => none) false
      ⟨[⟨["r", "a"], "foo."⟩, ⟨["r", "b"], "foo."⟩], [["r"]]⟩).fs.files
      = [⟨["r", "org", "noext"], "foo.__1"⟩, ⟨["r", "org", "noext"], "foo."⟩] ∧
    (organizeFiles [⟨["r", "org", "noext"], "foo.__1"⟩, ⟨["r", "org", "noext"], "foo."⟩]
      OrganizeMode.ext ["r", "org"] (fun _ => none) false
      (organizeFiles [⟨["r", "a"], "foo."⟩, ⟨["r", "b"], "foo."⟩] OrganizeMode.ext
        ["r", "org"] (fun _ => none) false
        ⟨[⟨["r", "a"], "foo."⟩, ⟨["r", "b"], "foo."⟩], [["r"]]⟩).fs).count = 1 := by
  decide

/-- **C6 (amended).** The idempotence guard holds: a file whose
computed destination resolves to its current location is skipped and
not counted, and a run over a tree in which every yielded file already
lies at its computed destination performs zero moves and leaves the
filesystem unchanged.  Re-running organize is therefore a no-op
exactly when the first run left every file at its computed destination
— which collision renaming can break (see the counterexample), so
unconditional idempotence fails. -/
theorem organize_idempotence_guard (mode : OrganizeMode)
    (organizeDir : List String) (mtime : FPath → Option (Nat × Nat))
    (dryRun : Bool) (files : List FPath) (fs : FS)
    (hall : ∀ f ∈ files, ∀ td, targetDirOf mode organizeDir mtime f = some td →
      (⟨td, f.name⟩ : FPath) = f) :
    (∀ st f td, targetDirOf mode organizeDir mtime f = some td →
      (⟨td, f.name⟩ : FPath) = f →
      organizeStep mode organizeDir mtime dryRun st f = st) ∧
    (organizeFiles files mode organizeDir mtime dryRun fs).count = 0 ∧
    (organizeFiles files mode organizeDir mtime dryRun fs).fs = fs := by
  have hstep : ∀ st f td, targetDirOf mode organizeDir mtime f = some td →
      (⟨td, f.name⟩ : FPath) = f →
      organizeStep mode organizeDir mtime dryRun st f = st := by
    intro st f td htd heq
    rw [organizeStep, htd]
    simp only [if_pos heq]
  have hfold : ∀ (fl : List FPath) (st : OrganizeState),
      (∀ f ∈ fl, ∀ td, targetDirOf mode organizeDir mtime f = some td →
        (⟨td, f.name⟩ : FPath) = f) →
      fl.foldl (organizeStep mode organizeDir mtime dryRun) st = st := by
    intro fl
    induction fl with
    | nil => intro st _; rfl
    | cons f rest ih =>
      intro st hs
      rw [List.foldl_cons]
      have hstf : organizeStep mode organizeDir mtime dryRun st f = st := by
        cases htd : targetDirOf mode organizeDir mtime f with
        | none => rw [organizeStep, htd]
        | some td =>
          exact hstep st f td htd (hs f (List.mem_cons_self _ _) td htd)
      rw [hstf]
      exact ih st (fun q hq => hs q (List.mem_cons_of_mem _ hq))
  refine ⟨hstep, ?_, ?_⟩ <;> rw [organizeFiles, hfold files _ hall]

/-- Witness for `organize_idempotence_guard`: a single file already at
its `ext`-mode destination `r/org/txt/a.txt`. -/
theorem organize_idempotence_guard_witness :
    (∀ f ∈ [(⟨["r", "org", "txt"], "a.txt"⟩ : FPath)], ∀ td,
      targetDirOf OrganizeMode.ext ["r", "org"] (fun _ => none) f = some td →
      (⟨td, f.name⟩ : FPath) = f) ∧
    ((∀ st f td, targetDirOf OrganizeMode.ext ["r", "org"] (fun _ => none) f = some td →
        (⟨td, f.name⟩ : FPath) = f →
        organizeStep OrganizeMode.ext ["r", "org"] (fun _ => none) false st f = st) ∧
      (organizeFiles [⟨["r", "org", "txt"], "a.txt"⟩] OrganizeMode.ext ["r", "org"]
        (fun _ => none) false
        ⟨[⟨["r", "org", "txt"], "a.txt"⟩], [["r"], ["r", "org"], ["r", "org", "txt"]]⟩).count
        = 0 ∧
      (organizeFiles [⟨["r", "org", "txt"], "a.txt"⟩] OrganizeMode.ext ["r", "org"]
        (fun _ => none) false
        ⟨[⟨["r", "org", "txt"], "a.txt"⟩], [["r"], ["r", "org"], ["r", "org", "txt"]]⟩).fs
        = ⟨[⟨["r", "org", "txt"], "a.txt"⟩], [["r"], ["r", "org"], ["r", "org", "txt"]]⟩) :=
  ⟨by decide, organize_idempotence_guard OrganizeMode.ext ["r", "org"] (fun _ => none)
    false [⟨["r", "org", "txt"], "a.txt"⟩]
    ⟨[⟨["r", "org", "txt"], "a.txt"⟩], [["r"], ["r", "org"], ["r", "org", "txt"]]⟩
    (by decide)⟩

/-! ### Traversal (`iter_files`, `should_skip`, `is_hidden`)

A filesystem snapshot for the walker: each directory holds leaf entries
(anything `os.walk` puts into `filenames`, plus symlinks to directories
which it puts into `dirnames` but — `followlinks=False` — never enters)
and real subdirectories.  `Path.is_file()` follows symlinks.  The glob
matcher is the collaborator `globMatch`. -/

inductive EntryKind where
  | regular | symlinkToFile | symlinkToDir | brokenSymlink | special
deriving DecidableEq, Repr

inductive DirTree where
  | node (leaves : List (String × EntryKind)) (subdirs : List (String × DirTree))

/-- `Path.is_file()`: true for a regular file and for a symlink whose
final target is a regular file. -/
def isFileKind : EntryKind → Bool
  | .regular => true
  | .symlinkToFile => true
  | _ => false

/-- `is_hidden`: some path component begins with a dot. -/
def isHidden (p : FPath) : Bool :=
  (fullPath p).any (fun part => part.startsWith ".")

/-- `should_skip`. -/
def shouldSkip (p : FPath) (includeHidden : Bool) (globMatch : FPath → Bool) : Bool :=
  (!includeHidden && isHidden p) || globMatch p

/-- `iter_files` from directory `cur`: yield every leaf that passes
`is_file()` and is not skipped (symlinks to directories sit in
`dirnames`, so they are neither yielded nor — being symlinks —
descended into), then recurse into real subdirectories, pruning hidden
ones unless `includeHidden`.  `fuel` bounds the depth; any fuel beyond
the tree's depth yields everything, and every theorem below holds for
all fuels. -/
def walkFiles (includeHidden : Bool) (globMatch : FPath → Bool) :
    Nat → DirTree → List String → List (FPath × EntryKind)
  | 0, _, _ => []
  | fuel + 1, .node leaves subdirs, cur =>
    leaves.filterMap (fun e =>
      if isFileKind e.2 && !(shouldSkip ⟨cur, e.1⟩ includeHidden globMatch) then
        some (⟨cur, e.1⟩, e.2)
      else none)
    ++ subdirs.flatMap (fun s =>
      if includeHidden || !(s.1.startsWith ".") then
        walkFiles includeHidden globMatch fuel s.2 (cur ++ [s.1])
      else [])

/-- **C5 counterexample.** A symbolic link pointing at a regular file
passes `Path.is_file()` (which follows symlinks), so `iter_files`
yields it: with one entry `r/link` of kind symlink-to-regular-file, the
traversal yields exactly that symlink — the claim that symbolic links
are never yielded is false. -/
theorem iter_files_yields_symlink :
    walkFiles true (fun _ => false) 1
        (DirTree.node [("link", EntryKind.symlinkToFile)] []) ["r"]
      = [(⟨["r"], "link"⟩, EntryKind.symlinkToFile)] := by
  decide

/-- **C5 (amended).** The traversal yields only entries that pass
`Path.is_file()` — regular files and symlinks resolving to regular
files — and that survive the hidden/glob filter; directories, symlinks
to directories, broken symlinks and special files are never yielded,
and symlinked directories are never descended into (they are not real
subdirectories).  A symlink to a regular file, however, is yielded. -/
theorem walk_yields_only_files (includeHidden : Bool) (globMatch : FPath → Bool) :
    ∀ (fuel : Nat) (t : DirTree) (cur : List String) (p : FPath) (k : EntryKind),
      (p, k) ∈ walkFiles includeHidden globMatch fuel t cur →
      isFileKind k = true ∧ shouldSkip p includeHidden globMatch = false := by
  intro fuel
  induction fuel with
  | zero =>
    intro t cur p k h
    cases h
  | succ fuel ih =>
    intro t cur p k h
    cases t with
    | node leaves subdirs =>
      simp only [walkFiles] at h
      rcases List.mem_append.mp h with h | h
      · obtain ⟨e, he, hsome⟩ := List.mem_filterMap.mp h
        by_cases hc : (isFileKind e.2
            && !(shouldSkip ⟨cur, e.1⟩ includeHidden globMatch)) = true
        · rw [if_pos hc] at hsome
          have hp : (⟨cur, e.1⟩ : FPath) = p ∧ e.2 = k := by
            have := Option.some.inj hsome
            exact ⟨congrArg Prod.fst this, congrArg Prod.snd this⟩
          obtain ⟨hp1, hp2⟩ := hp
          rw [Bool.and_eq_true, Bool.not_eq_true'] at hc
          rw [← hp1, ← hp2]
          exact ⟨hc.1, hc.2⟩
        · rw [if_neg hc] at hsome
          cases hsome
      · obtain ⟨s, hs, hmem⟩ := List.mem_flatMap.mp h
        by_cases hc : (includeHidden || !(s.1.startsWith ".")) = true
        · rw [if_pos hc] at hmem
          exact ih s.2 (cur ++ [s.1]) p k hmem
        · rw [if_neg hc] at hmem
          cases hmem

/-- Witness for `walk_yields_only_files`: a one-file tree. -/
theorem walk_yields_only_files_witness :
    ((⟨["r"], "a.txt"⟩, EntryKind.regular) ∈ walkFiles true (fun _ => false) 1
      (DirTree.node [("a.txt", EntryKind.regular)] []) ["r"]) ∧
    (isFileKind EntryKind.regular = true ∧
      shouldSkip ⟨["r"], "a.txt"⟩ true (fun _ => false) = false) :=
  ⟨by decide, walk_yields_only_files true (fun _ => false) 1
    (DirTree.node [("a.txt", EntryKind.regular)] []) ["r"]
    ⟨["r"], "a.txt"⟩ EntryKind.regular (by decide)⟩

end Tidy
